import Mathlib

/-!
# Sevensquare: the inline operations of `adbfb.h`

A shallow embedding of the member functions whose bodies are written in
`src/adbfb.h`, with the Qt byte-array primitives they call
(`startsWith`, `indexOf`, `split`, `replace`) rendered as functions on
lists of bytes, followed by the properties proved about them.

Conventions.
* A `QByteArray` is the list of its bytes.
* A `const char *` argument is the list of the bytes of the C string that
  stand before its terminating NUL.
* C++ `int` values are integers; where a product is formed the result of every
  multiplication is wrapped to 32 bits, two's complement.
* A member function that may write to its object returns the new object
  (next to its result, when it has one).
* Qt signals sent by an object are appended to the field `emitted`
  of its model, oldest first.
-/

namespace SevenSquare

/-! ## Bytes and byte arrays -/

/-- One byte, a value in 0..255. -/
abbrev Byte := Fin 256

/-- Carriage return, 0x0D, the C character written backslash-r. -/
abbrev CR : Byte := 13

/-- Line feed, 0x0A, the C character written backslash-n. -/
abbrev LF : Byte := 10

/-- Contents of a Qt byte array. -/
abbrev QByteArray := List Byte

namespace QByteArray

/-- Qt `QByteArray::startsWith(const char *str)`: true for an empty string,
false when the array is shorter than the string, else the comparison of the
first `len` bytes of the array with the string. -/
def startsWith (d : QByteArray) (str : List Byte) : Bool :=
  if str = [] then true
  else if d.length < str.length then false
  else d.take str.length == str

/-- Search loop of `indexOf`: `d` is what remains of the array from index `i`
on; the result is the first index at which `str` stands, or -1. -/
def indexOfFrom (str : List Byte) : List Byte → Nat → Int
  | [], i => if str = [] then (i : Int) else -1
  | c :: rest, i =>
    if str.isPrefixOf (c :: rest) then (i : Int) else indexOfFrom str rest (i + 1)

/-- Qt `QByteArray::indexOf(const char *str, int from = 0)` with the default
`from`: the index of the first occurrence of `str`, or -1 when there is
none. -/
def indexOf (d : QByteArray) (str : List Byte) : Int :=
  indexOfFrom str d 0

/-- Loop of `split`: `cur` holds the bytes read since the last separator
(the pending `mid(start, end - start)`), `acc` the pieces appended so far. -/
def splitLoop (sep : Byte) (cur : List Byte) (acc : List QByteArray) :
    List Byte → List QByteArray
  | [] => acc ++ [cur]
  | c :: rest =>
    if c = sep then splitLoop sep [] (acc ++ [cur]) rest
    else splitLoop sep (cur ++ [c]) acc rest

/-- Qt `QByteArray::split(char sep)`: every separator found closes a piece,
and the bytes after the last separator form the last piece. -/
def split (d : QByteArray) (sep : Byte) : List QByteArray :=
  splitLoop sep [] [] d

/-- Scan of `replace` for a non-empty `before`, left to right. `skip` is the
number of bytes of the occurrence just replaced that are still to be passed
over (Qt advances its index by the length of `before` after a match). -/
def replaceScan (before after : List Byte) : Nat → List Byte → List Byte
  | _, [] => []
  | skip + 1, _ :: rest => replaceScan before after skip rest
  | 0, c :: rest =>
    if before.isPrefixOf (c :: rest) then
      after ++ replaceScan before after (before.length - 1) rest
    else c :: replaceScan before after 0 rest

/-- Qt `QByteArray::replace(const char *before, const char *after)`: every
occurrence of `before`, found from left to right and not overlapping an
earlier one, is replaced by `after`. Only a non-empty `before` is modelled
(the one call in this program passes a constant of two bytes); for an empty
`before` the model returns the array as it is. -/
def replace (d : QByteArray) (before after : List Byte) : QByteArray :=
  if before = [] then d else replaceScan before after 0 d

end QByteArray

/-! ## class Commander, class AdbExecutor -/

/-- Data members of `class Commander`. The process handle `p` plays no part in
the operations modelled here and is left out. -/
structure Commander where
  error : QByteArray
  output : QByteArray
  ret : Int
  cmd : String
  args : List String
  deriving DecidableEq

namespace Commander

/-- `bool exitSuccess(void) { return ret == 0; }` -/
def exitSuccess (c : Commander) : Bool := decide (c.ret = 0)

/-- `bool outputEqual(const char *str) { return output.startsWith(str); }` -/
def outputEqual (c : Commander) (str : List Byte) : Bool :=
  QByteArray.startsWith c.output str

/-- `bool outputHas(const char *str)`:
`return (output.length() > 0 && output.indexOf(str) > 0);` -/
def outputHas (c : Commander) (str : List Byte) : Bool :=
  decide ((c.output.length : Int) > 0) && decide (QByteArray.indexOf c.output str > 0)

/-- `QList<QByteArray> outputLines(void)`: `return output.split(0x0A);` -/
def outputLines (c : Commander) : List QByteArray :=
  QByteArray.split c.output LF

end Commander

/-- `class AdbExecutor : public Commander`: it adds no data member. -/
structure AdbExecutor extends Commander
  deriving DecidableEq

namespace AdbExecutor

/-- Constructor `AdbExecutor() : Commander("adb") {}`. -/
def new : AdbExecutor :=
  { error := [], output := [], ret := 0, cmd := "adb", args := [] }

/-- `QByteArray& outputFixNewLine(void)`:
`return output.replace(CR LF, LF);`. The first component is the array the
returned reference designates, the second the object after the call. -/
def outputFixNewLine (a : AdbExecutor) : QByteArray × AdbExecutor :=
  let fixed := QByteArray.replace a.output [CR, LF] [LF]
  (fixed, { a with output := fixed })

end AdbExecutor

/-! ## class ADB -/

/-- Signals declared by `class ADB`. -/
inductive ADBSignal where
  | deviceFound
  | deviceWaitTimeout
  | deviceDisconnected
  deriving DecidableEq

/-- Data members of `class ADB`, `mutex` and `delayCond` apart, with the
signals the object has sent. -/
structure ADB where
  delay : Nat
  connected : Bool
  emitted : List ADBSignal
  deriving DecidableEq

namespace ADB

/-- Enumerator `DELAY_STEP`, in ms. -/
def DELAY_STEP : Nat := 150
/-- Enumerator `DELAY_MINI`. -/
def DELAY_MINI : Nat := 100
/-- Enumerator `DELAY_FAST`. -/
def DELAY_FAST : Nat := 200
/-- Enumerator `DELAY_NORMAL`. -/
def DELAY_NORMAL : Nat := 400
/-- Enumerator `DELAY_SLOW`. -/
def DELAY_SLOW : Nat := 800
/-- Enumerator `DELAY_MAX`. -/
def DELAY_MAX : Nat := 2000
-- `DELAY_INFINITE = ULONG_MAX` depends on the platform and is used by none of
-- the functions below; it is left out.

/-- `void setMiniDelay() { delay = DELAY_MINI; }` -/
def setMiniDelay (a : ADB) : ADB := { a with delay := DELAY_MINI }

/-- `void setMaxiDelay() { delay = DELAY_MAX; }` -/
def setMaxiDelay (a : ADB) : ADB := { a with delay := DELAY_MAX }

/-- `bool isConnected(void) { return connected; }` -/
def isConnected (a : ADB) : Bool := a.connected

/-- `void setConnected(bool state) { connected = state; }` -/
def setConnected (a : ADB) (state : Bool) : ADB := { a with connected := state }

end ADB

/-! ## class DeviceKeyInfo -/

/-- Data members of `class DeviceKeyInfo`. -/
structure DeviceKeyInfo where
  keyLayout : String
  eventDeviceIdx : Int
  powerKeycode : Int
  wakeSucessed : Bool
  deriving DecidableEq

namespace DeviceKeyInfo

/-- Constructor `DeviceKeyInfo(const QString &name, int i, int code)` with its
initialiser list `keyLayout(name), eventDeviceIdx(i), powerKeycode(code),
wakeSucessed(true)`. -/
def new (name : String) (i code : Int) : DeviceKeyInfo :=
  { keyLayout := name, eventDeviceIdx := i, powerKeycode := code, wakeSucessed := true }

end DeviceKeyInfo

/-! ## class FBEx -/

/-- Value of a C++ `int` holding the integer `x` modulo 2^32, two's
complement. -/
def wrapInt32 (x : Int) : Int := (x + 2 ^ 31) % 2 ^ 32 - 2 ^ 31

/-- Descriptor members of `class FBEx` with its flags; the base class
`ADB` is the parent structure. The byte buffers, the file handle and the
waiting executor are left out. -/
structure FBEx extends ADB where
  doCompress : Bool
  readPaused : Bool
  screencapOptQuality : Bool
  screencapOptSpeed : Bool
  fb_width : Int
  fb_height : Int
  fb_format : Int
  bpp : Int
  deriving DecidableEq

namespace FBEx

/-- `bool paused(void) { return readPaused; }` -/
def paused (f : FBEx) : Bool × FBEx := (f.readPaused, f)

/-- `bool supportCompress(void) { return doCompress; }` -/
def supportCompress (f : FBEx) : Bool × FBEx := (f.doCompress, f)

/-- `int getBPP(void) { return bpp; }` -/
def getBPP (f : FBEx) : Int × FBEx := (f.bpp, f)

/-- `int width() { return fb_width; }` -/
def width (f : FBEx) : Int × FBEx := (f.fb_width, f)

/-- `int height() { return fb_height; }` -/
def height (f : FBEx) : Int × FBEx := (f.fb_height, f)

/-- `int length() { return fb_width * fb_height * bpp; }`: the product is
formed from the left, each multiplication in `int`. -/
def length (f : FBEx) : Int × FBEx :=
  (wrapInt32 (wrapInt32 (f.fb_width * f.fb_height) * f.bpp), f)

end FBEx

/-! ## Reference notions used by the statements -/

/-- Left-to-right rewriting of a byte sequence in which every pair CR, LF met
by the scan becomes the single byte LF and every other byte is copied. -/
def crlfToLf : List Byte → List Byte
  | [] => []
  | [c] => [c]
  | c :: c2 :: rest =>
    if c = CR ∧ c2 = LF then LF :: crlfToLf rest else c :: crlfToLf (c2 :: rest)

/-- Number of positions of `s` at which CR is directly followed by LF. -/
def crlfCount (s : List Byte) : Nat := (s.zip s.tail).count (CR, LF)

/-- What the bridge transport does to a binary stream: every LF byte is sent
as the two bytes CR, LF; every other byte is sent as it is. -/
def adbExpandNewLine : List Byte → List Byte
  | [] => []
  | c :: rest =>
    if c = LF then CR :: LF :: adbExpandNewLine rest else c :: adbExpandNewLine rest

/-- The first occurrence of `str` in `d` starts at index `k`: `str` stands at
`k` and at no smaller index. -/
def IsFirstOccurrenceAt (str d : List Byte) (k : Nat) : Prop :=
  k ≤ d.length ∧ str <+: d.drop k ∧ ∀ j, j < k → ¬ str <+: d.drop j

instance instDecidableIsFirstOccurrenceAt (str d : List Byte) (k : Nat) :
    Decidable (IsFirstOccurrenceAt str d k) := by
  unfold IsFirstOccurrenceAt
  infer_instance

/-! ## Sample objects -/

/-- An executor whose captured output is `a LF CR b LF`: it holds CR and LF,
never CR directly followed by LF. -/
def adbTextOutput : AdbExecutor :=
  { AdbExecutor.new with output := [97, LF, CR, 98, LF] }

/-- A controller that is disconnected, has the smallest delay and has sent no
signal. -/
def adbDisconnected : ADB :=
  { delay := ADB.DELAY_MINI, connected := false, emitted := [] }

/-- Two power-key candidates as the constructor builds them, for the input
devices 0 and 1, both with the common power keycode 116. -/
def twoPowerKeyCandidates : List DeviceKeyInfo :=
  [DeviceKeyInfo.new "gpio-keys.kl" 0 116, DeviceKeyInfo.new "qwerty.kl" 1 116]

/-- A framebuffer descriptor of 296 x 522 pixels, format 1 (RGBA_8888), 4
bytes per pixel. -/
def fbSample : FBEx :=
  { delay := ADB.DELAY_MINI, connected := true, emitted := [],
    doCompress := false, readPaused := false,
    screencapOptQuality := false, screencapOptSpeed := false,
    fb_width := 296, fb_height := 522, fb_format := 1, bpp := 4 }

/-! ## Commander: `outputEqual`, `outputHas`, `outputLines` -/

theorem startsWith_iff (d str : List Byte) :
    QByteArray.startsWith d str = true ↔ str <+: d := by
  unfold QByteArray.startsWith
  by_cases h : str = []
  · simp [h]
  · by_cases hl : d.length < str.length
    · simp only [h, hl, if_true, if_false]
      constructor
      · intro hf
        cases hf
      · intro hp
        exact absurd hp.length_le (by omega)
    · simp only [h, hl, if_false, beq_iff_eq]
      rw [List.prefix_iff_eq_take]
      exact eq_comm

/-- C10: `outputEqual(str)` is true exactly when `str` is a prefix of the
captured output; so it is true when the output equals `str`, true when the
output is `str` followed by further bytes, and true for every output when
`str` is empty. -/
theorem outputEqual_iff_startsWith (c : Commander) (str : List Byte) :
    (c.outputEqual str = true ↔ str <+: c.output) ∧
    (c.output = str → c.outputEqual str = true) ∧
    (∀ more : List Byte, c.output = str ++ more → c.outputEqual str = true) ∧
    c.outputEqual [] = true := by
  have key : ∀ s : List Byte, c.outputEqual s = true ↔ s <+: c.output :=
    fun s => startsWith_iff c.output s
  refine ⟨key str, ?_, ?_, ?_⟩
  · intro h
    rw [key, h]
  · intro more h
    rw [key, h]
    exact List.prefix_append str more
  · rw [key]
    exact List.nil_prefix

theorem indexOfFrom_spec (str d : List Byte) (i : Nat) :
    (∃ k, IsFirstOccurrenceAt str d k ∧
        QByteArray.indexOfFrom str d i = ((i + k : Nat) : Int)) ∨
    ((∀ j, j ≤ d.length → ¬ str <+: d.drop j) ∧ QByteArray.indexOfFrom str d i = -1) := by
  induction d generalizing i with
  | nil =>
    by_cases h : str = []
    · left
      exact ⟨0, ⟨le_refl _, by simp [h], by intro j hj; omega⟩,
        by simp [QByteArray.indexOfFrom, h]⟩
    · right
      refine ⟨?_, by simp [QByteArray.indexOfFrom, h]⟩
      intro j _ hp
      simp at hp
      exact h hp
  | cons c rest ih =>
    by_cases h : str <+: c :: rest
    · left
      refine ⟨0, ⟨Nat.zero_le _, by simpa using h, by intro j hj; omega⟩, ?_⟩
      simp [QByteArray.indexOfFrom, h]
    · have hne : ¬ (str.isPrefixOf (c :: rest) = true) := by
        rw [List.isPrefixOf_iff_prefix]
        exact h
      rcases ih (i + 1) with ⟨k, ⟨hk1, hk2, hk3⟩, hk⟩ | ⟨hno, hk⟩
      · left
        refine ⟨k + 1, ⟨by simpa using hk1, by simpa using hk2, ?_⟩, ?_⟩
        · intro j hj
          cases j with
          | zero => simpa using h
          | succ j => simpa using hk3 j (by omega)
        · simp only [QByteArray.indexOfFrom, hne, if_false, Bool.false_eq_true]
          rw [hk]
          push_cast
          ring
      · right
        refine ⟨?_, ?_⟩
        · intro j hj
          cases j with
          | zero => simpa using h
          | succ j => simpa using hno j (by simpa using hj)
        · simp only [QByteArray.indexOfFrom, hne, if_false, Bool.false_eq_true]
          exact hk

theorem IsFirstOccurrenceAt_unique {str d : List Byte} {k m : Nat}
    (h : IsFirstOccurrenceAt str d k) (hm : IsFirstOccurrenceAt str d m) : k = m := by
  rcases Nat.lt_trichotomy k m with hlt | heq | hgt
  · exact absurd h.2.1 (hm.2.2 k hlt)
  · exact heq
  · exact absurd hm.2.1 (h.2.2 m hgt)

/-- C6: `outputHas(str)` is true exactly when the captured output is not
empty and the first occurrence of `str` in it starts at an index greater than
0; whenever `str` stands at index 0 of the output the result is false, whatever
follows. -/
theorem outputHas_iff_first_occurrence_pos (c : Commander) (str : List Byte) :
    (c.outputHas str = true ↔
      c.output ≠ [] ∧ ∃ k, 0 < k ∧ IsFirstOccurrenceAt str c.output k) ∧
    (str <+: c.output → c.outputHas str = false) := by
  have key := indexOfFrom_spec str c.output 0
  refine ⟨⟨?_, ?_⟩, ?_⟩
  · intro h
    simp only [Commander.outputHas, Bool.and_eq_true, decide_eq_true_eq] at h
    obtain ⟨hlen, hidx⟩ := h
    refine ⟨by intro he; simp [he] at hlen, ?_⟩
    unfold QByteArray.indexOf at hidx
    rcases key with ⟨k, hk, hv⟩ | ⟨_, hv⟩
    · refine ⟨k, ?_, hk⟩
      rw [hv] at hidx
      simpa using hidx
    · rw [hv] at hidx
      omega
  · rintro ⟨hne, k, hk0, hk⟩
    rcases key with ⟨m, hm, hv⟩ | ⟨hno, _⟩
    · have hkm := IsFirstOccurrenceAt_unique hk hm
      subst hkm
      simp only [Commander.outputHas, Bool.and_eq_true, decide_eq_true_eq]
      refine ⟨?_, ?_⟩
      · have hpos : 0 < c.output.length := List.length_pos.mpr hne
        exact_mod_cast hpos
      · unfold QByteArray.indexOf
        rw [hv]
        simpa using hk0
    · exact absurd hk.2.1 (hno k hk.1)
  · intro hp
    rcases key with ⟨k, hk, hv⟩ | ⟨hno, _⟩
    · have h0 : k = 0 := by
        by_contra hk0
        exact hk.2.2 0 (Nat.pos_of_ne_zero hk0) (by simpa using hp)
      subst h0
      simp [Commander.outputHas, QByteArray.indexOf, hv]
    · exact absurd (by simpa using hp) (hno 0 (Nat.zero_le _))

theorem intercalate_cons_of_ne_nil (s x : List Byte) (ys : List (List Byte)) (h : ys ≠ []) :
    List.intercalate s (x :: ys) = x ++ s ++ List.intercalate s ys := by
  cases ys with
  | nil => exact absurd rfl h
  | cons y ys => simp [List.intercalate]

theorem intercalate_append_pair (s a b : List Byte) (acc : List (List Byte)) :
    List.intercalate s (acc ++ [a, b]) = List.intercalate s (acc ++ [a ++ s ++ b]) := by
  induction acc with
  | nil => simp [List.intercalate]
  | cons x acc ih =>
    rw [List.cons_append, List.cons_append,
      intercalate_cons_of_ne_nil _ _ _ (by simp), intercalate_cons_of_ne_nil _ _ _ (by simp), ih]

theorem splitLoop_intercalate (sep : Byte) (d cur : List Byte) (acc : List (List Byte)) :
    List.intercalate [sep] (QByteArray.splitLoop sep cur acc d)
      = List.intercalate [sep] (acc ++ [cur ++ d]) := by
  induction d generalizing cur acc with
  | nil => simp [QByteArray.splitLoop]
  | cons c rest ih =>
    by_cases h : c = sep
    · subst h
      simp only [QByteArray.splitLoop, if_true]
      rw [ih, List.append_assoc, List.nil_append]
      have hpair := intercalate_append_pair [c] cur rest acc
      simpa using hpair
    · simp only [QByteArray.splitLoop, h, if_false]
      rw [ih]
      simp

theorem splitLoop_no_sep (sep : Byte) (d cur : List Byte) (acc : List (List Byte))
    (hacc : ∀ l ∈ acc, sep ∉ l) (hcur : sep ∉ cur) :
    ∀ l ∈ QByteArray.splitLoop sep cur acc d, sep ∉ l := by
  induction d generalizing cur acc with
  | nil =>
    intro l hl
    simp only [QByteArray.splitLoop, List.mem_append, List.mem_singleton] at hl
    rcases hl with hl | hl
    · exact hacc l hl
    · rw [hl]
      exact hcur
  | cons c rest ih =>
    by_cases h : c = sep
    · simp only [QByteArray.splitLoop, h, if_true]
      apply ih
      · intro l hl
        simp only [List.mem_append, List.mem_singleton] at hl
        rcases hl with hl | hl
        · exact hacc l hl
        · rw [hl]
          exact hcur
      · simp
    · simp only [QByteArray.splitLoop, h, if_false]
      apply ih _ _ hacc
      simp only [List.mem_append, List.mem_singleton, not_or]
      exact ⟨hcur, fun e => h e.symm⟩

theorem splitLoop_length (sep : Byte) (d cur : List Byte) (acc : List (List Byte)) :
    (QByteArray.splitLoop sep cur acc d).length = acc.length + d.count sep + 1 := by
  induction d generalizing cur acc with
  | nil => simp [QByteArray.splitLoop]
  | cons c rest ih =>
    by_cases h : c = sep
    · subst h
      simp only [QByteArray.splitLoop, if_true]
      rw [ih]
      simp
      omega
    · simp only [QByteArray.splitLoop, h, if_false]
      rw [ih, List.count_cons_of_ne (fun e => h e.symm)]

/-- C9: `outputLines()` splits the captured output on LF without loss: the
lines joined with one LF between neighbours give the output back, no line
holds an LF, there are as many lines as LF bytes in the output plus one, and
an empty output gives the one empty line. -/
theorem outputLines_lossless (c : Commander) :
    List.intercalate [LF] c.outputLines = c.output ∧
    (∀ l ∈ c.outputLines, LF ∉ l) ∧
    c.outputLines.length = c.output.count LF + 1 ∧
    (c.output = [] → c.outputLines = [[]]) := by
  refine ⟨?_, ?_, ?_, ?_⟩
  · unfold Commander.outputLines QByteArray.split
    rw [splitLoop_intercalate]
    simp [List.intercalate]
  · exact splitLoop_no_sep LF c.output [] [] (by simp) (by simp)
  · unfold Commander.outputLines QByteArray.split
    rw [splitLoop_length]
    simp
  · intro h
    simp [Commander.outputLines, QByteArray.split, h, QByteArray.splitLoop]

/-! ## AdbExecutor: `outputFixNewLine` -/

theorem replaceScan_crlf_single (c : Byte) :
    QByteArray.replaceScan [CR, LF] [LF] 0 [c] = [c] := by
  simp [QByteArray.replaceScan, List.isPrefixOf]

theorem replaceScan_crlf_cons_cons (c c2 : Byte) (rest : List Byte) :
    QByteArray.replaceScan [CR, LF] [LF] 0 (c :: c2 :: rest)
      = if c = CR ∧ c2 = LF then LF :: QByteArray.replaceScan [CR, LF] [LF] 0 rest
        else c :: QByteArray.replaceScan [CR, LF] [LF] 0 (c2 :: rest) := by
  by_cases h : c = CR ∧ c2 = LF
  · obtain ⟨h1, h2⟩ := h
    subst h1 h2
    simp [QByteArray.replaceScan, List.isPrefixOf]
  · have hp : ¬ (List.isPrefixOf [CR, LF] (c :: c2 :: rest) = true) := by
      simp only [List.isPrefixOf, Bool.and_true, Bool.and_eq_true, beq_iff_eq]
      intro hh
      exact h ⟨hh.1.symm, hh.2.symm⟩
    rw [if_neg h, QByteArray.replaceScan, if_neg hp]

theorem replaceScan_eq_crlfToLf (s : List Byte) :
    QByteArray.replaceScan [CR, LF] [LF] 0 s = crlfToLf s := by
  induction s using crlfToLf.induct with
  | case1 => simp [QByteArray.replaceScan, crlfToLf]
  | case2 c => rw [replaceScan_crlf_single, crlfToLf]
  | case3 c c2 rest h ih =>
    rw [replaceScan_crlf_cons_cons, crlfToLf, if_pos h, if_pos h, ih]
  | case4 c c2 rest h ih =>
    rw [replaceScan_crlf_cons_cons, crlfToLf, if_neg h, if_neg h, ih]

theorem replace_crlf_eq_crlfToLf (s : List Byte) :
    QByteArray.replace s [CR, LF] [LF] = crlfToLf s := by
  unfold QByteArray.replace
  rw [if_neg (by simp)]
  exact replaceScan_eq_crlfToLf s

theorem crlfToLf_length (s : List Byte) :
    (crlfToLf s).length + crlfCount s = s.length := by
  induction s using crlfToLf.induct with
  | case1 => simp [crlfToLf, crlfCount]
  | case2 c => simp [crlfToLf, crlfCount]
  | case3 c c2 rest h ih =>
    obtain ⟨h1, h2⟩ := h
    subst h1 h2
    have hz : crlfCount (CR :: LF :: rest) = crlfCount rest + 1 := by
      cases rest with
      | nil => simp [crlfCount]
      | cons r rs =>
        have hne : (LF : Byte) ≠ CR := by decide
        have hpair : ((LF, r) == (CR, LF)) = false := by
          simp [hne]
        simp [crlfCount, List.count_cons, hpair]
    rw [crlfToLf, if_pos ⟨rfl, rfl⟩, hz]
    simp only [List.length_cons]
    omega
  | case4 c c2 rest h ih =>
    have hz : crlfCount (c :: c2 :: rest) = crlfCount (c2 :: rest) := by
      have hpair : ((c, c2) == (CR, LF)) = false := by
        simpa using h
      simp [crlfCount, List.count_cons, hpair]
    rw [crlfToLf, if_neg h, hz]
    simp only [List.length_cons] at ih ⊢
    omega

theorem crlfToLf_sublist (s : List Byte) : List.Sublist (crlfToLf s) s := by
  induction s using crlfToLf.induct with
  | case1 => exact List.Sublist.slnil
  | case2 c => exact List.Sublist.refl _
  | case3 c c2 rest h ih =>
    rw [crlfToLf, if_pos h, h.2]
    exact List.Sublist.cons _ (List.Sublist.cons₂ _ ih)
  | case4 c c2 rest h ih =>
    rw [crlfToLf, if_neg h]
    exact List.Sublist.cons₂ _ ih

theorem crlfToLf_of_not_infix (s : List Byte) (h : ¬ [CR, LF] <:+: s) : crlfToLf s = s := by
  induction s using crlfToLf.induct with
  | case1 => rfl
  | case2 c => rfl
  | case3 c c2 rest hc ih =>
    obtain ⟨h1, h2⟩ := hc
    subst h1 h2
    exact absurd (List.prefix_iff_eq_append.mpr rfl).isInfix h
  | case4 c c2 rest hc ih =>
    rw [crlfToLf, if_neg hc, ih]
    intro hi
    exact h (hi.trans (List.suffix_cons _ _).isInfix)

theorem not_crlf_infix_of_no_CR (s : List Byte) (h : CR ∉ s) : ¬ [CR, LF] <:+: s := by
  intro hi
  exact h (hi.subset (by simp))

theorem adbExpandNewLine_head (b : List Byte) : (adbExpandNewLine b).head? ≠ some LF := by
  cases b with
  | nil => simp [adbExpandNewLine]
  | cons c rest =>
    by_cases h : c = LF
    · have hne : (CR : Byte) ≠ LF := by decide
      simp [adbExpandNewLine, h, hne]
    · simp [adbExpandNewLine, h]

theorem crlfToLf_cons_of_head (c : Byte) (t : List Byte) (h : t.head? ≠ some LF) :
    crlfToLf (c :: t) = c :: crlfToLf t := by
  cases t with
  | nil => simp [crlfToLf]
  | cons c2 t =>
    have hc : ¬ (c = CR ∧ c2 = LF) := by
      rintro ⟨_, h2⟩
      exact h (by simp [h2])
    rw [crlfToLf, if_neg hc]

theorem crlfToLf_adbExpandNewLine (b : List Byte) : crlfToLf (adbExpandNewLine b) = b := by
  induction b with
  | nil => simp [adbExpandNewLine, crlfToLf]
  | cons c rest ih =>
    by_cases h : c = LF
    · subst h
      rw [adbExpandNewLine, if_pos rfl, crlfToLf, if_pos ⟨rfl, rfl⟩, ih]
    · rw [adbExpandNewLine, if_neg h,
        crlfToLf_cons_of_head _ _ (adbExpandNewLine_head rest), ih]

/-- C1: `outputFixNewLine` returns, and leaves stored in `output`, the
left-to-right rewriting of the old output in which each pair CR, LF is
replaced by one LF and every other byte is kept in order (the result is a
sublist of the old output, the other members are untouched); its length is the
old length minus the number of CR, LF pairs. -/
theorem outputFixNewLine_eq_crlfToLf (a : AdbExecutor) :
    a.outputFixNewLine.1 = crlfToLf a.output ∧
    a.outputFixNewLine.2 = { a with output := crlfToLf a.output } ∧
    List.Sublist a.outputFixNewLine.1 a.output ∧
    a.outputFixNewLine.1.length + crlfCount a.output = a.output.length ∧
    a.outputFixNewLine.1.length = a.output.length - crlfCount a.output := by
  have hfix : a.outputFixNewLine.1 = crlfToLf a.output := replace_crlf_eq_crlfToLf a.output
  have hlen := crlfToLf_length a.output
  refine ⟨hfix, ?_, ?_, ?_, ?_⟩
  · show ({ a with output := QByteArray.replace a.output [CR, LF] [LF] } : AdbExecutor) = _
    rw [replace_crlf_eq_crlfToLf]
  · rw [hfix]
    exact crlfToLf_sublist a.output
  · rw [hfix]
    exact hlen
  · rw [hfix]
    omega

/-- C2: when the captured output holds no CR directly followed by LF,
`outputFixNewLine` returns it unchanged, byte for byte and with the same
length, and the object is as before. -/
theorem outputFixNewLine_unchanged (a : AdbExecutor) (h : ¬ [CR, LF] <:+: a.output) :
    a.outputFixNewLine.1 = a.output ∧
    a.outputFixNewLine.1.length = a.output.length ∧
    a.outputFixNewLine.2 = a := by
  have hfix : a.outputFixNewLine.1 = a.output := by
    show QByteArray.replace a.output [CR, LF] [LF] = a.output
    rw [replace_crlf_eq_crlfToLf, crlfToLf_of_not_infix a.output h]
  refine ⟨hfix, by rw [hfix], ?_⟩
  show ({ a with output := QByteArray.replace a.output [CR, LF] [LF] } : AdbExecutor) = a
  rw [replace_crlf_eq_crlfToLf, crlfToLf_of_not_infix a.output h]

/-- Witness of C2 at the output `a LF CR b LF`, which holds CR and LF but no
CR directly followed by LF. -/
theorem outputFixNewLine_unchanged_witness :
    ¬ [CR, LF] <:+: adbTextOutput.output ∧
    adbTextOutput.outputFixNewLine.1 = [97, LF, CR, 98, LF] ∧
    adbTextOutput.outputFixNewLine.2 = adbTextOutput :=
  ⟨by decide,
   (outputFixNewLine_unchanged adbTextOutput (by decide)).1,
   (outputFixNewLine_unchanged adbTextOutput (by decide)).2.2⟩

/-- C3: `outputFixNewLine` undoes the expansion of the bridge transport: for
every byte sequence `b`, applied to `b` with each LF expanded to CR, LF it
returns `b` and leaves `b` stored in `output`. -/
theorem outputFixNewLine_adbExpandNewLine (a : AdbExecutor) (b : List Byte) :
    ({ a with output := adbExpandNewLine b } : AdbExecutor).outputFixNewLine.1 = b ∧
    ({ a with output := adbExpandNewLine b } : AdbExecutor).outputFixNewLine.2.output = b := by
  have hfix : QByteArray.replace (adbExpandNewLine b) [CR, LF] [LF] = b := by
    rw [replace_crlf_eq_crlfToLf, crlfToLf_adbExpandNewLine]
  exact ⟨hfix, hfix⟩

/-! ## ADB: delay and connection flag -/

/-- C8: from any state, `setMiniDelay()` leaves the delay at `DELAY_MINI` =
100 and `setMaxiDelay()` at `DELAY_MAX` = 2000, so after either the delay lies
in [DELAY_MINI, DELAY_MAX]; neither changes the connected flag (nor sends a
signal). -/
theorem setMiniDelay_setMaxiDelay_bounds (a : ADB) :
    ADB.DELAY_MINI = 100 ∧ ADB.DELAY_MAX = 2000 ∧
    a.setMiniDelay.delay = 100 ∧ a.setMaxiDelay.delay = 2000 ∧
    (ADB.DELAY_MINI ≤ a.setMiniDelay.delay ∧ a.setMiniDelay.delay ≤ ADB.DELAY_MAX) ∧
    (ADB.DELAY_MINI ≤ a.setMaxiDelay.delay ∧ a.setMaxiDelay.delay ≤ ADB.DELAY_MAX) ∧
    a.setMiniDelay.connected = a.connected ∧ a.setMaxiDelay.connected = a.connected ∧
    a.setMiniDelay.emitted = a.emitted ∧ a.setMaxiDelay.emitted = a.emitted := by
  refine ⟨rfl, rfl, rfl, rfl, ⟨?_, ?_⟩, ⟨?_, ?_⟩, rfl, rfl, rfl, rfl⟩
  · exact le_refl _
  · show ADB.DELAY_MINI ≤ ADB.DELAY_MAX
    decide
  · show ADB.DELAY_MINI ≤ ADB.DELAY_MAX
    decide
  · exact le_refl _

/-- C4, as the code has it: `ADB::setConnected(state)` stores `state` in the
connected flag, so that `isConnected()` returns it, leaves the delay as it was
and sends no signal, whether or not the state changes. -/
theorem setConnected_stores_state (a : ADB) (state : Bool) :
    (a.setConnected state).connected = state ∧
    (a.setConnected state).isConnected = state ∧
    (a.setConnected state).delay = a.delay ∧
    (a.setConnected state).emitted = a.emitted :=
  ⟨rfl, rfl, rfl, rfl⟩

/-- C4 as stated fails: on a disconnected controller `setConnected(true)`
changes the connection state and no signal is sent, so the signals sent are not
the earlier ones followed by exactly one more. -/
theorem setConnected_sends_no_signal :
    adbDisconnected.connected ≠ true ∧
    (adbDisconnected.setConnected true).connected = true ∧
    (adbDisconnected.setConnected true).emitted = adbDisconnected.emitted ∧
    ¬ ∃ e : ADBSignal,
      (adbDisconnected.setConnected true).emitted = adbDisconnected.emitted ++ [e] := by
  refine ⟨by decide, rfl, rfl, ?_⟩
  rintro ⟨e, he⟩
  cases he

/-! ## DeviceKeyInfo -/

/-- C5 at two candidates: the constructor stores the name, the device index
and the keycode as given, and sets `wakeSucessed` in both candidates although
no key has woken the device; two candidates hold the flag, not at most one. -/
theorem twoPowerKeyCandidates_both_wakeSucessed :
    twoPowerKeyCandidates.map (fun k => (k.keyLayout, k.eventDeviceIdx, k.powerKeycode))
      = [("gpio-keys.kl", 0, 116), ("qwerty.kl", 1, 116)] ∧
    twoPowerKeyCandidates.map (fun k => k.wakeSucessed) = [true, true] ∧
    twoPowerKeyCandidates.countP (fun k => k.wakeSucessed) = 2 ∧
    ¬ twoPowerKeyCandidates.countP (fun k => k.wakeSucessed) ≤ 1 := by
  refine ⟨by decide, by decide, by decide, by decide⟩

/-! ## FBEx: frame length -/

theorem wrapInt32_mul_wrapInt32 (x b : Int) :
    wrapInt32 (wrapInt32 x * b) = wrapInt32 (x * b) := by
  unfold wrapInt32
  have hdiv := Int.emod_add_ediv (x + 2 ^ 31) (2 ^ 32)
  have hrw : ((x + 2 ^ 31) % 2 ^ 32 - 2 ^ 31) * b + 2 ^ 31
      = (x * b + 2 ^ 31) + 2 ^ 32 * (-((x + 2 ^ 31) / 2 ^ 32) * b) := by
    linear_combination b * hdiv
  rw [hrw, Int.add_mul_emod_self_left]

theorem wrapInt32_of_fits (x : Int) (h0 : -(2 ^ 31) ≤ x) (h1 : x < 2 ^ 31) :
    wrapInt32 x = x := by
  unfold wrapInt32
  rw [Int.emod_eq_of_lt (by omega) (by omega)]
  omega

/-- C7: for a descriptor with non-negative width, height and bytes per pixel
whose product fits a signed 32-bit int, `length()` returns exactly
`fb_width * fb_height * bpp` and leaves the object, so `fb_width`,
`fb_height`, `fb_format` and `bpp`, unchanged; `width()`, `height()` and
`getBPP()` return the three factors. -/
theorem length_eq_width_height_bpp (f : FBEx) (hw : 0 ≤ f.fb_width) (hh : 0 ≤ f.fb_height)
    (hb : 0 ≤ f.bpp) (hfit : f.fb_width * f.fb_height * f.bpp < 2 ^ 31) :
    f.length.1 = f.fb_width * f.fb_height * f.bpp ∧
    f.length.2 = f ∧
    (f.length.2.fb_width = f.fb_width ∧ f.length.2.fb_height = f.fb_height ∧
      f.length.2.fb_format = f.fb_format ∧ f.length.2.bpp = f.bpp) ∧
    (f.width.1 = f.fb_width ∧ f.height.1 = f.fb_height ∧ f.getBPP.1 = f.bpp) ∧
    f.length.1 = f.width.1 * f.height.1 * f.getBPP.1 := by
  have hv : f.length.1 = f.fb_width * f.fb_height * f.bpp := by
    show wrapInt32 (wrapInt32 (f.fb_width * f.fb_height) * f.bpp) = _
    rw [wrapInt32_mul_wrapInt32]
    apply wrapInt32_of_fits _ _ hfit
    have hnn : 0 ≤ f.fb_width * f.fb_height * f.bpp := mul_nonneg (mul_nonneg hw hh) hb
    omega
  exact ⟨hv, rfl, ⟨rfl, rfl, rfl, rfl⟩, ⟨rfl, rfl, rfl⟩, hv⟩

/-- Witness of C7 at the descriptor 296 x 522 x 4: the frame is 618048 bytes
long. -/
theorem length_eq_width_height_bpp_witness :
    (0 ≤ fbSample.fb_width ∧ 0 ≤ fbSample.fb_height ∧ 0 ≤ fbSample.bpp ∧
      fbSample.fb_width * fbSample.fb_height * fbSample.bpp < 2 ^ 31) ∧
    fbSample.length.1 = 618048 ∧ fbSample.length.2 = fbSample :=
  ⟨by decide,
   (length_eq_width_height_bpp fbSample (by decide) (by decide) (by decide)
      (by decide)).1.trans (by decide),
   (length_eq_width_height_bpp fbSample (by decide) (by decide) (by decide)
      (by decide)).2.1⟩

end SevenSquare
